import Mathlib

/-!
Verification of the matching-and-selection pipeline of `download_roms.py`
(angstwad/retro-rom-downloader).

Strings are embedded as `List Char` (Python `str`); a Lean string literal
`"..."` is converted with `String.data`.  Python's whitespace class is
modelled by its ASCII members, and `str.lower` by `Char.toLower` (ASCII);
every input exercised by the claims is ASCII.
-/

set_option autoImplicit false

/-- ASCII members of Python's whitespace class `\s` (also used by `str.strip`). -/
def pySpace (c : Char) : Bool :=
  c = ' ' || c = '\t' || c = '\n' || c = '\r' || c = '\x0b' || c = '\x0c'

/-- Drop trailing whitespace, as in the right half of Python `str.strip`. -/
def dropTrailSpaces (l : List Char) : List Char :=
  ((l.reverse.dropWhile pySpace)).reverse

/-- Python `str.strip()`: remove leading and trailing whitespace. -/
def pyStrip (l : List Char) : List Char :=
  dropTrailSpaces (l.dropWhile pySpace)

/-!
`re.sub(r'\s*\([^)]*\)', '', s)` (download_roms.py line 110 and line 350).

Since `[^)]*` cannot cross a `')'`, every match of the pattern ends exactly at
a `')'`.  Splitting `s` on `')'` into segments `t₀, …, tₖ` (the separators are
the `')'` characters), the scan of `re.sub` processes each non-final segment
independently: if `tᵢ` contains a `'('`, the leftmost match covering the
segment's closing `')'` begins at the run of whitespace immediately before the
first `'('` of `tᵢ`, and the match swallows from there through the `')'` —
so the segment contributes its prefix before the first `'('` with trailing
whitespace removed, and the `')'` disappears.  If `tᵢ` has no `'('`, no match
ends at that `')'` and both survive verbatim.  The final segment is never part
of a match (no `')'` follows it) and survives verbatim.
-/

/-- Split on `')'`: the segments between the `')'` characters, in order. -/
def splitClose : List Char → List (List Char)
  | [] => [[]]
  | c :: cs => if c = ')' then [] :: splitClose cs else (splitClose cs).modifyHead (c :: ·)

/-- Contribution of a non-final `')'`-segment to the output of the `re.sub`. -/
def cleanSeg (t : List Char) : List Char :=
  if t.contains '(' then dropTrailSpaces (t.takeWhile (fun c => c ≠ '(')) else t ++ [')']

/-- Reassemble the processed segments (the last one is kept verbatim). -/
def assembleSegs : List (List Char) → List Char
  | [] => []
  | [t] => t
  | t :: t' :: ts => cleanSeg t ++ assembleSegs (t' :: ts)

/-- Model of `re.sub(r'\s*\([^)]*\)', '', l)`: remove every parenthetical tag together
with the whitespace run immediately preceding it. -/
def reSubTags (l : List Char) : List Char :=
  assembleSegs (splitClose l)

/-- Python `str.replace(".zip", "")` (line 112): delete every occurrence of
`".zip"`, scanning left to right, non-overlapping. -/
def removeZip : List Char → List Char
  | [] => []
  | '.' :: 'z' :: 'i' :: 'p' :: cs => removeZip cs
  | c :: cs => c :: removeZip cs

/-- Model of `get_canonical_name` (lines 98-113): strip parenthetical tags, delete the
`".zip"` occurrences, and strip surrounding whitespace. -/
def get_canonical_name (filename : List Char) : List Char :=
  pyStrip (removeZip (reSubTags filename))

/-- Python `s.split("/")[-1]`: the part after the last `'/'` (line 141, 172). -/
def lastSegment (l : List Char) : List Char :=
  (l.reverse.takeWhile (fun c => c ≠ '/')).reverse

/-- Python `tag in s`: substring test (line 175, 138). -/
def containsSub (pat : List Char) : List Char → Bool
  | [] => pat.isEmpty
  | c :: cs => pat.isPrefixOf (c :: cs) || containsSub pat cs

/-- Numeric value of a digit string, as Python `int` (line 181). -/
def digitsVal (ds : List Char) : Nat :=
  ds.foldl (fun a c => a * 10 + (c.toNat - '0'.toNat)) 0

/-- Match of `\(rev (\d+)\)` anchored at the front of the list: the literal
`"(rev "`, then a maximal non-empty digit run, then `')'`; yields the value of
the digit run. -/
def parseRevAt : List Char → Option Nat
  | '(' :: 'r' :: 'e' :: 'v' :: ' ' :: rest =>
    if (rest.takeWhile Char.isDigit).isEmpty then none
    else
      match rest.dropWhile Char.isDigit with
      | ')' :: _ => some (digitsVal (rest.takeWhile Char.isDigit))
      | _ => none
  | _ => none

/-- Model of `re.search(r"\(rev (\d+)\)", filename)` (line 179): value of the leftmost
revision tag, if any. -/
def findRev : List Char → Option Nat
  | [] => none
  | c :: cs =>
    match parseRevAt (c :: cs) with
    | some n => some n
    | none => findRev cs

/-- Score of one candidate in `select_best_version` (lines 170-181): start at
100, subtract 50 when the lowercased last path segment contains one of the
penalty tags, add the value of the leftmost `(rev N)` tag. -/
def scoreMatch (m : List Char) : Int :=
  let filename := (lastSegment m).map Char.toLower
  let score : Int := 100
  let score :=
    if containsSub ("(beta".data) filename || containsSub ("(proto".data) filename
        || containsSub ("(sample)".data) filename then
      score - 50
    else score
  match findRev filename with
  | some n => score + (n : Int)
  | none => score

/-- The `for match in matches` loop of `select_best_version` (lines 167-185):
carries `best_match` and `highest_score`, replacing them on strictly greater
scores only. -/
def selectLoop : List (List Char) → Option (List Char) → Int → Option (List Char)
  | [], best, _ => best
  | m :: ms, best, highest =>
    if scoreMatch m > highest then selectLoop ms (some m) (scoreMatch m)
    else selectLoop ms best highest

/-- Model of `select_best_version` (lines 149-187); the parameter `matches` is renamed
`ms` because `matches` is a Lean keyword. -/
def select_best_version (ms : List (List Char)) : Option (List Char) :=
  if ms.isEmpty then none
  else selectLoop ms none (-1)

/-- The f-string `f"({region})"` (line 135). -/
def regionTag (region : List Char) : List Char :=
  '(' :: (region ++ [')'])

/-- Insertion-ordered dictionary from canonical names to link lists, as the
Python `dict` of `build_canonical_map`. -/
abbrev CMap : Type := List (List Char × List (List Char))

/-- One loop step of `build_canonical_map` (lines 143-145): create the key's
entry if absent, then append the link to it (new keys go to the end, matching
`dict` insertion order). -/
def cmAppend : CMap → List Char → List Char → CMap
  | [], k, v => [(k, [v])]
  | (k', vs) :: rest, k, v =>
    if k' = k then (k', vs ++ [v]) :: rest else (k', vs) :: cmAppend rest k v

/-- Model of `canonical_map[k]` (line 220); at every call site the key is one of the
map's keys, so the default `[]` for a missing key is never reached. -/
def cmLookup : CMap → List Char → List (List Char)
  | [], _ => []
  | (k', vs) :: rest, k => if k' = k then vs else cmLookup rest k

/-- Model of `list(canonical_map.keys())` (line 213), in insertion order. -/
def cmKeys (m : CMap) : List (List Char) :=
  m.map Prod.fst

/-- Model of `build_canonical_map` (lines 116-146): keep the links whose full URL
contains `"(region)"`, then group them by the canonical name of their last
path segment. -/
def build_canonical_map (links : List (List Char)) (region : List Char) : CMap :=
  let regional := links.filter (fun link => containsSub (regionTag region) link)
  regional.foldl (fun m link => cmAppend m (get_canonical_name (lastSegment link)) link) []

/-- First element with maximal second component, as Python `max` with a key
function (replace only on strictly greater). -/
def firstMax : List (List Char × Nat) → Option (List Char × Nat)
  | [] => none
  | x :: xs => some (xs.foldl (fun b y => if y.2 > b.2 then y else b) x)

/-- Model of `thefuzz.process.extractOne(query, choices, score_cutoff)` (line 217),
with the similarity scorer abstracted as a parameter: keep the choices whose
score reaches the cutoff, and return the first one with maximal score,
or `none` when no choice reaches the cutoff. -/
def extractOne (scorer : List Char → List Char → Nat) (query : List Char)
    (choices : List (List Char)) (cutoff : Nat) : Option (List Char × Nat) :=
  firstMax ((choices.map (fun c => (c, scorer query c))).filter (fun p => cutoff ≤ p.2))

/-- Model of `matched_games.add(game)` (line 224): Python set insertion, modelled as an
append-if-absent list. -/
def setInsert (s : List (List Char)) (x : List Char) : List (List Char) :=
  if x ∈ s then s else s ++ [x]

/-- The `for game in games` loop of `filter_links` (lines 215-224), carrying
`final_links` and `matched_games`.  `if match:` is the `some` branch;
`if best_version:` is Python truthiness, false for `None` and for the empty
string. -/
def flLoop (scorer : List Char → List Char → Nat) (cm : CMap)
    (names : List (List Char)) :
    List (List Char) → List (List Char) → List (List Char) →
    List (List Char) × List (List Char)
  | [], fl, mg => (fl, mg)
  | g :: gs, fl, mg =>
    match extractOne scorer g names 85 with
    | some m =>
      match select_best_version (cmLookup cm m.1) with
      | some bv =>
        if bv.isEmpty then flLoop scorer cm names gs fl mg
        else flLoop scorer cm names gs (fl ++ [bv]) (setInsert mg g)
      | none => flLoop scorer cm names gs fl mg
    | none => flLoop scorer cm names gs fl mg

/-- Model of `filter_links` (lines 190-227).  `list(set(final_links))` (line 227) has
unspecified order; it is modelled as `List.dedup`, which keeps one copy of
each element. -/
def filter_links (scorer : List Char → List Char → Nat)
    (links games : List (List Char)) (region : List Char) :
    List (List Char) × List (List Char) :=
  let cm := build_canonical_map links region
  let res := flLoop scorer cm (cmKeys cm) games [] []
  (res.1.dedup, res.2)

/-- Code-point lexicographic order on strings, as Python `<=` used by
`sorted`. -/
def lexLe : List Char → List Char → Bool
  | [], _ => true
  | _ :: _, [] => false
  | a :: as, b :: bs => if a = b then lexLe as bs else decide (a < b)

/-- Insert into a `lexLe`-sorted list. -/
def insOne (x : List Char) : List (List Char) → List (List Char)
  | [] => [x]
  | y :: ys => if lexLe x y then x :: y :: ys else y :: insOne x ys

/-- Python `sorted` on strings (insertion sort; the result is characterised by
sortedness and permutation, so the algorithm choice is immaterial). -/
def sortLex : List (List Char) → List (List Char)
  | [] => []
  | x :: xs => insOne x (sortLex xs)

/-- Model of `sorted(list(set(games) - matched_games))` (lines 463-466): the unmatched
titles reported by `download_command`, in sorted order. -/
def missing_games_report (games matched : List (List Char)) : List (List Char) :=
  sortLex ((games.filter (fun g => !(matched.contains g))).dedup)

/-- Model of `CLI.download_command` (lines 436-473), reduced to its pure decision
skeleton over the results of the collaborators: `none` means the command
returns before invoking the downloader, `some ml` means it hands the final
link list `ml` to `write_links_to_file`/`download_roms`. -/
def download_command (scorer : List Char → List Char → Nat)
    (links games : List (List Char)) (region : List Char) :
    Option (List (List Char)) :=
  if links.isEmpty then none
  else if games.isEmpty then none
  else
    let ml := (filter_links scorer links games region).1
    if ml.isEmpty then none
    else some ml

/-- Model of `pathlib` `Path(name).suffix`: the part from the last dot on, provided
that dot is neither the first character nor the last. -/
def pathSuffix (name : List Char) : List Char :=
  let e := name.reverse.takeWhile (fun c => c ≠ '.')
  if e.length + 1 < name.length ∧ 0 < e.length then '.' :: e.reverse else []

/-- Model of `pathlib` `Path(name).stem` (line 347): the name without its suffix. -/
def pathStem (name : List Char) : List Char :=
  name.take (name.length - (pathSuffix name).length)

/-- Model of `get_clean_name_for_rename` (lines 332-356): drop the extension, remove
the parenthetical tags, move a trailing `", The"` to a leading `"The "`,
strip whitespace. -/
def get_clean_name_for_rename (filename : List Char) : List Char :=
  let nameWithoutExt := pathStem filename
  let cleanName := reSubTags nameWithoutExt
  let cleanName :=
    if (", The".data).isSuffixOf cleanName then
      ("The ".data) ++ cleanName.take (cleanName.length - 5)
    else cleanName
  pyStrip cleanName

/-- The name `rename_command` gives the file (line 425):
`clean_name + old_path.suffix`. -/
def rename_new_name (filename : List Char) : List Char :=
  get_clean_name_for_rename filename ++ pathSuffix filename

/-- Model of `if old_path != new_path:` (line 427): the rename is performed exactly
when the new name differs (the directory part is unchanged). -/
def rename_performed (filename : List Char) : Bool :=
  rename_new_name filename ≠ filename

/-! ## Helper lemmas about the selector loop -/

theorem scoreMatch_ge (m : List Char) : (50 : Int) ≤ scoreMatch m := by
  unfold scoreMatch
  dsimp only
  cases h : findRev ((lastSegment m).map Char.toLower) <;> simp only [h] <;> split <;> omega

theorem selectLoop_mem :
    ∀ (ms : List (List Char)) (best : Option (List Char)) (hs : Int),
      selectLoop ms best hs = best ∨ ∃ x ∈ ms, selectLoop ms best hs = some x := by
  intro ms
  induction ms with
  | nil => intro best hs; left; rfl
  | cons m ms ih =>
    intro best hs
    simp only [selectLoop]
    split
    · rcases ih (some m) (scoreMatch m) with h | ⟨x, hx, h⟩
      · right; exact ⟨m, by simp, h⟩
      · right; exact ⟨x, by simp [hx], h⟩
    · rcases ih best hs with h | ⟨x, hx, h⟩
      · left; exact h
      · right; exact ⟨x, by simp [hx], h⟩

theorem selectLoop_ne_none :
    ∀ (ms : List (List Char)) (b : List Char) (hs : Int),
      selectLoop ms (some b) hs ≠ none := by
  intro ms
  induction ms with
  | nil => intro b hs h; exact Option.noConfusion h
  | cons m ms ih =>
    intro b hs
    simp only [selectLoop]
    split
    · exact ih m _
    · exact ih b hs

/-- C5: `select_best_version` returns `none` exactly on the empty input list;
every non-empty input yields a selection. -/
theorem C5_none_iff_empty (ms : List (List Char)) :
    select_best_version ms = none ↔ ms = [] := by
  cases ms with
  | nil => simp [select_best_version]
  | cons m rest =>
    constructor
    · intro h
      exfalso
      have h50 := scoreMatch_ge m
      have hsel : selectLoop (m :: rest) none (-1) = none := by
        simpa [select_best_version] using h
      rw [selectLoop, if_pos (by omega)] at hsel
      exact selectLoop_ne_none rest m (scoreMatch m) hsel
    · intro h; exact absurd h (List.cons_ne_nil m rest)

/-- C10: on every non-empty input, `select_best_version` returns one of the
input candidates — penalised variants are deprioritised, never excluded. -/
theorem C10_mem_of_ne_nil (ms : List (List Char)) (h : ms ≠ []) :
    ∃ x, select_best_version ms = some x ∧ x ∈ ms := by
  cases ms with
  | nil => exact absurd rfl h
  | cons m rest =>
    have h50 := scoreMatch_ge m
    have hsel : select_best_version (m :: rest) = selectLoop rest (some m) (scoreMatch m) := by
      rw [select_best_version, if_neg (by simp), selectLoop, if_pos (by omega)]
    rcases selectLoop_mem rest (some m) (scoreMatch m) with heq | ⟨x, hx, heq⟩
    · exact ⟨m, by rw [hsel, heq], by simp⟩
    · exact ⟨x, by rw [hsel, heq], by simp [hx]⟩

theorem C10_witness :
    ∃ x, select_best_version [("X (Beta).zip".data)] = some x
      ∧ x ∈ [("X (Beta).zip".data)] :=
  C10_mem_of_ne_nil [("X (Beta).zip".data)] (by simp)

/-- C7: the final link list of `filter_links` has no duplicate entries. -/
theorem C7_final_links_nodup (scorer : List Char → List Char → Nat)
    (links games : List (List Char)) (region : List Char) :
    ((filter_links scorer links games region).1).Nodup := by
  simp only [filter_links]
  exact List.nodup_dedup _

/-- C9: the rename cleaner derives the clean name (extension stripped,
parenthetical tags removed, trailing `", The"` moved to a leading `"The "`),
the file is renamed exactly when the rebuilt name differs from the original,
and `"Zelda, The (USA).zip"` is renamed to `"The Zelda.zip"`. -/
theorem C9_rename_clean :
    (∀ f, rename_performed f = true ↔ rename_new_name f ≠ f)
    ∧ rename_new_name ("Zelda, The (USA).zip".data) = ("The Zelda.zip".data)
    ∧ get_clean_name_for_rename ("Zelda, The (USA).zip".data) = ("The Zelda".data)
    ∧ rename_performed ("Zelda, The (USA).zip".data) = true := by
  refine ⟨fun f => ?_, by decide, by decide, by decide⟩
  simp [rename_performed]

/-! ## Helper lemmas about the matching loop -/

theorem mem_setInsert_of_mem (s : List (List Char)) (x y : List Char) (h : x ∈ s) :
    x ∈ setInsert s y := by
  unfold setInsert
  split
  · exact h
  · exact List.mem_append_left _ h

theorem self_mem_setInsert (s : List (List Char)) (y : List Char) :
    y ∈ setInsert s y := by
  unfold setInsert
  split
  · assumption
  · exact List.mem_append_right _ (by simp)

theorem flLoop_mg_persist (scorer : List Char → List Char → Nat) (cm : CMap)
    (names : List (List Char)) :
    ∀ (gs fl mg : List (List Char)) (x : List Char), x ∈ mg →
      x ∈ (flLoop scorer cm names gs fl mg).2 := by
  intro gs
  induction gs with
  | nil => intro fl mg x h; exact h
  | cons g gs ih =>
    intro fl mg x h
    simp only [flLoop]
    split
    · split
      · split
        · exact ih fl mg x h
        · exact ih _ _ x (mem_setInsert_of_mem mg x g h)
      · exact ih fl mg x h
    · exact ih fl mg x h

theorem flLoop_fl_of_mg_nil (scorer : List Char → List Char → Nat) (cm : CMap)
    (names : List (List Char)) :
    ∀ (gs fl mg : List (List Char)),
      (flLoop scorer cm names gs fl mg).2 = [] →
      (flLoop scorer cm names gs fl mg).1 = fl := by
  intro gs
  induction gs with
  | nil => intro fl mg _; rfl
  | cons g gs ih =>
    intro fl mg h2
    simp only [flLoop] at h2 ⊢
    cases hx : extractOne scorer g names 85 with
    | none =>
      simp only [hx] at h2 ⊢
      exact ih fl mg h2
    | some m =>
      simp only [hx] at h2 ⊢
      cases hb : select_best_version (cmLookup cm m.1) with
      | none =>
        simp only [hb] at h2 ⊢
        exact ih fl mg h2
      | some bv =>
        simp only [hb] at h2 ⊢
        by_cases hbe : bv.isEmpty = true
        · rw [if_pos hbe] at h2 ⊢
          exact ih fl mg h2
        · rw [if_neg hbe] at h2 ⊢
          exfalso
          have hg : g ∈ (flLoop scorer cm names gs (fl ++ [bv]) (setInsert mg g)).2 :=
            flLoop_mg_persist scorer cm names gs (fl ++ [bv]) (setInsert mg g) g
              (self_mem_setInsert mg g)
          rw [h2] at hg
          exact List.not_mem_nil g hg

/-- C8: the download pipeline short-circuits: with no discovered links, or an
empty games list, or no matched title, `download_command` returns `none`
(no downloader invocation). -/
theorem C8_short_circuit (scorer : List Char → List Char → Nat)
    (links games : List (List Char)) (region : List Char) :
    (links = [] → download_command scorer links games region = none)
    ∧ (games = [] → download_command scorer links games region = none)
    ∧ ((filter_links scorer links games region).2 = [] →
        download_command scorer links games region = none) := by
  refine ⟨?_, ?_, ?_⟩
  · intro h; subst h; rfl
  · intro h; subst h
    unfold download_command
    split
    · rfl
    · rfl
  · intro h
    unfold download_command
    split
    · rfl
    · split
      · rfl
      · have hfl : (filter_links scorer links games region).1 = [] := by
          simp only [filter_links] at h ⊢
          rw [flLoop_fl_of_mg_nil scorer _ _ games [] [] h]
          rfl
        rw [if_pos (by simp [hfl])]

theorem C8_witness :
    download_command (fun _ _ => 0) [("http://x/A (USA).zip".data)] [("B".data)]
      ("USA".data) = none :=
  (C8_short_circuit (fun _ _ => 0) [("http://x/A (USA).zip".data)] [("B".data)]
    ("USA".data)).2.2 (by decide)

/-! ## The selector policy, stated as in the specification

`scoreSpec` follows the spec's wording: start at 100, subtract 50 when the
lowercase filename (last path segment) contains one of the tags `"(beta"`,
`"(proto"`, `"(sample)"`, add N for the first occurrence of a revision tag
`"(rev N)"`.  `selectBestSpec` picks the candidate with the highest final
score, ties resolved to the first candidate in input order. -/

def scoreSpec (candidate : List Char) : Int :=
  let fn := (lastSegment candidate).map Char.toLower
  let penalty : Int :=
    if containsSub ("(beta".data) fn || containsSub ("(proto".data) fn
        || containsSub ("(sample)".data) fn then 50 else 0
  let bonus : Int :=
    match findRev fn with
    | some n => (n : Int)
    | none => 0
  100 - penalty + bonus

/-- The maximum of a list of scores (`none` for no candidates). -/
def maxScore : List Int → Option Int
  | [] => none
  | s :: ss => some (ss.foldl max s)

def selectBestSpec (ms : List (List Char)) : Option (List Char) :=
  match maxScore (ms.map scoreSpec) with
  | none => none
  | some b => ms.find? (fun x => decide (scoreSpec x = b))

theorem scoreSpec_eq (m : List Char) : scoreSpec m = scoreMatch m := by
  unfold scoreSpec scoreMatch
  dsimp only
  cases h : findRev ((lastSegment m).map Char.toLower) <;> simp only [h] <;> split <;> omega

theorem foldl_max_init_le : ∀ (l : List Int) (a : Int), a ≤ l.foldl max a := by
  intro l
  induction l with
  | nil => intro a; exact le_refl a
  | cons x l ih =>
    intro a
    calc a ≤ max a x := le_max_left a x
    _ ≤ l.foldl max (max a x) := ih (max a x)

theorem foldl_max_mem_le : ∀ (l : List Int) (a x : Int), x ∈ l → x ≤ l.foldl max a := by
  intro l
  induction l with
  | nil => intro a x h; exact absurd h (List.not_mem_nil x)
  | cons y l ih =>
    intro a x h
    rcases List.mem_cons.mp h with h | h
    · subst h
      calc x ≤ max a x := le_max_right a x
      _ ≤ l.foldl max (max a x) := foldl_max_init_le l (max a x)
    · exact ih (max a y) x h

theorem find?_congr : ∀ (l : List (List Char)) (p q : List Char → Bool),
    (∀ x ∈ l, p x = q x) → l.find? p = l.find? q := by
  intro l
  induction l with
  | nil => intro p q _; rfl
  | cons x l ih =>
    intro p q h
    have hx := h x (by simp)
    cases hp : p x with
    | true =>
      have hq : q x = true := hx ▸ hp
      rw [List.find?_cons_of_pos _ hp, List.find?_cons_of_pos _ hq]
    | false =>
      have hq : q x = false := hx ▸ hp
      rw [List.find?_cons_of_neg _ (by simp [hp]), List.find?_cons_of_neg _ (by simp [hq])]
      exact ih p q (fun y hy => h y (by simp [hy]))

theorem selectLoop_spec :
    ∀ (ms : List (List Char)) (best : Option (List Char)) (hs : Int),
      ((ms.map scoreMatch).foldl max hs = hs → selectLoop ms best hs = best)
      ∧ (hs < (ms.map scoreMatch).foldl max hs →
          selectLoop ms best hs
            = ms.find? (fun x => decide ((ms.map scoreMatch).foldl max hs ≤ scoreMatch x))) := by
  intro ms
  induction ms with
  | nil =>
    intro best hs
    exact ⟨fun _ => rfl, fun h => absurd h (lt_irrefl hs)⟩
  | cons m ms ih =>
    intro best hs
    simp only [List.map_cons, List.foldl_cons, selectLoop]
    by_cases hgt : scoreMatch m > hs
    · rw [if_pos hgt]
      simp only [max_eq_right (le_of_lt hgt)]
      have hsr := foldl_max_init_le (ms.map scoreMatch) (scoreMatch m)
      rcases eq_or_lt_of_le hsr with hr | hr
      · constructor
        · intro h; omega
        · intro _
          rw [(ih (some m) (scoreMatch m)).1 hr.symm]
          rw [List.find?_cons_of_pos]
          simp [← hr]
      · constructor
        · intro h; omega
        · intro _
          rw [(ih (some m) (scoreMatch m)).2 hr]
          rw [List.find?_cons_of_neg]
          simp only [decide_eq_true_eq, not_le]
          exact hr
    · rw [if_neg hgt]
      push_neg at hgt
      simp only [max_eq_left hgt]
      constructor
      · exact (ih best hs).1
      · intro hlt
        rw [(ih best hs).2 hlt]
        rw [List.find?_cons_of_neg]
        simp only [decide_eq_true_eq, not_le]
        omega

/-- C1: `select_best_version` implements the claimed policy exactly: each
candidate scores 100, minus 50 for a `"(beta"`/`"(proto"`/`"(sample)"` tag in
the lowercased filename, plus N for the first `"(rev N)"` tag; the highest
score wins with ties to the first candidate; and the two Selector examples
from the spec evaluate as claimed. -/
theorem C1_selector_policy :
    (∀ ms, select_best_version ms = selectBestSpec ms)
    ∧ select_best_version [("X (Beta).zip".data), ("X (USA).zip".data)]
        = some ("X (USA).zip".data)
    ∧ select_best_version [("X (USA).zip".data), ("X (USA) (Rev 1).zip".data)]
        = some ("X (USA) (Rev 1).zip".data) := by
  refine ⟨fun ms => ?_, by decide, by decide⟩
  cases ms with
  | nil => rfl
  | cons m ms =>
    have h50 := scoreMatch_ge m
    have hinit := foldl_max_init_le (ms.map scoreMatch) (scoreMatch m)
    have hsel : select_best_version (m :: ms) = selectLoop (m :: ms) none (-1) := by
      rw [select_best_version, if_neg (by simp)]
    have h1 : max (-1 : Int) (scoreMatch m) = scoreMatch m := max_eq_right (by omega)
    have hpos : (-1 : Int) < ((m :: ms).map scoreMatch).foldl max (-1) := by
      simp only [List.map_cons, List.foldl_cons]
      rw [h1]
      have h2 := foldl_max_init_le (ms.map scoreMatch) (scoreMatch m)
      omega
    rw [hsel, (selectLoop_spec (m :: ms) none (-1)).2 hpos]
    have hfun : scoreSpec = scoreMatch := funext scoreSpec_eq
    unfold selectBestSpec
    simp only [hfun, List.map_cons, maxScore, List.foldl_cons, h1]
    apply find?_congr
    intro x hx
    have hxle : scoreMatch x ≤ (ms.map scoreMatch).foldl max (scoreMatch m) := by
      rcases List.mem_cons.mp hx with h | h
      · subst h; exact hinit
      · exact foldl_max_mem_le (ms.map scoreMatch) (scoreMatch m) (scoreMatch x)
          (List.mem_map_of_mem scoreMatch h)
    apply decide_eq_decide.mpr
    constructor
    · intro h; exact le_antisymm hxle h
    · intro h; exact le_of_eq h.symm

/-! ## Region filtering (C2) -/

/-- All values of a canonical map satisfy `P`. -/
def cmAll (P : List Char → Prop) (m : CMap) : Prop :=
  ∀ p ∈ m, ∀ x ∈ p.2, P x

theorem cmAll_append (P : List Char → Prop) :
    ∀ (m : CMap) (k v : List Char), cmAll P m → P v → cmAll P (cmAppend m k v) := by
  intro m
  induction m with
  | nil =>
    intro k v _ hv p hp x hx
    simp only [cmAppend, List.mem_singleton] at hp
    subst hp
    simp only [List.mem_singleton] at hx
    subst hx
    exact hv
  | cons e rest ih =>
    intro k v hm hv p hp x hx
    obtain ⟨k', vs⟩ := e
    simp only [cmAppend] at hp
    split at hp
    · rcases List.mem_cons.mp hp with h | h
      · subst h
        rcases List.mem_append.mp hx with h | h
        · exact hm (k', vs) (by simp) x h
        · simp only [List.mem_singleton] at h
          subst h
          exact hv
      · exact hm p (List.mem_cons_of_mem _ h) x hx
    · rcases List.mem_cons.mp hp with h | h
      · subst h
        exact hm (k', vs) (by simp) x hx
      · exact ih k v (fun q hq => hm q (List.mem_cons_of_mem _ hq)) hv p h x hx

theorem cmAll_foldl (P : List Char → Prop) :
    ∀ (ls : List (List Char)) (m : CMap), cmAll P m → (∀ l ∈ ls, P l) →
      cmAll P (ls.foldl (fun m link => cmAppend m (get_canonical_name (lastSegment link)) link) m) := by
  intro ls
  induction ls with
  | nil => intro m hm _; exact hm
  | cons l ls ih =>
    intro m hm hls
    simp only [List.foldl_cons]
    exact ih _ (cmAll_append P m _ l hm (hls l (by simp)))
      (fun x hx => hls x (List.mem_cons_of_mem _ hx))

theorem build_canonical_map_all (links : List (List Char)) (region : List Char) :
    cmAll (fun l => containsSub (regionTag region) l = true)
      (build_canonical_map links region) := by
  unfold build_canonical_map
  apply cmAll_foldl
  · intro p hp; exact absurd hp (List.not_mem_nil p)
  · intro l hl
    exact (List.mem_filter.mp hl).2

theorem cmLookup_all (P : List Char → Prop) :
    ∀ (m : CMap) (k x : List Char), cmAll P m → x ∈ cmLookup m k → P x := by
  intro m
  induction m with
  | nil => intro k x _ hx; exact absurd hx (List.not_mem_nil x)
  | cons e rest ih =>
    intro k x hm hx
    obtain ⟨k', vs⟩ := e
    simp only [cmLookup] at hx
    split at hx
    · exact hm (k', vs) (by simp) x hx
    · exact ih k x (fun q hq => hm q (List.mem_cons_of_mem _ hq)) hx

theorem select_mem (ms : List (List Char)) (x : List Char)
    (h : select_best_version ms = some x) : x ∈ ms := by
  cases ms with
  | nil => exact Option.noConfusion h
  | cons m rest =>
    rw [select_best_version, if_neg (by simp)] at h
    rcases selectLoop_mem (m :: rest) none (-1) with heq | ⟨y, hy, heq⟩
    · rw [heq] at h; exact Option.noConfusion h
    · rw [heq] at h
      obtain rfl := Option.some_inj.mp h
      exact hy

theorem flLoop_fl_all (P : List Char → Prop) (scorer : List Char → List Char → Nat)
    (cm : CMap) (names : List (List Char)) (hcm : cmAll P cm) :
    ∀ (gs fl mg : List (List Char)), (∀ x ∈ fl, P x) →
      ∀ x ∈ (flLoop scorer cm names gs fl mg).1, P x := by
  intro gs
  induction gs with
  | nil => intro fl mg hfl x hx; exact hfl x hx
  | cons g gs ih =>
    intro fl mg hfl x hx
    simp only [flLoop] at hx
    cases hx1 : extractOne scorer g names 85 with
    | none =>
      simp only [hx1] at hx
      exact ih fl mg hfl x hx
    | some m =>
      simp only [hx1] at hx
      cases hb : select_best_version (cmLookup cm m.1) with
      | none =>
        simp only [hb] at hx
        exact ih fl mg hfl x hx
      | some bv =>
        simp only [hb] at hx
        by_cases hbe : bv.isEmpty = true
        · rw [if_pos hbe] at hx
          exact ih fl mg hfl x hx
        · rw [if_neg hbe] at hx
          refine ih (fl ++ [bv]) (setInsert mg g) ?_ x hx
          intro y hy
          rcases List.mem_append.mp hy with h | h
          · exact hfl y h
          · simp only [List.mem_singleton] at h
            subst h
            exact cmLookup_all P cm m.1 y hcm (select_mem _ y hb)

/-- C2 (amended): every link retained by `build_canonical_map`, and hence
every final link of `filter_links`, has the literal `"(region)"` somewhere in
its full URL (the filter at line 138 tests the whole link, not the
filename). -/
theorem C2_region_in_url (links : List (List Char)) (region : List Char)
    (scorer : List Char → List Char → Nat) (games : List (List Char))
    (k l : List Char) (vs : List (List Char)) :
    ((k, vs) ∈ build_canonical_map links region → l ∈ vs →
      containsSub (regionTag region) l = true)
    ∧ (l ∈ (filter_links scorer links games region).1 →
      containsSub (regionTag region) l = true) := by
  constructor
  · intro hm hl
    exact build_canonical_map_all links region (k, vs) hm l hl
  · intro hl
    simp only [filter_links, List.mem_dedup] at hl
    exact flLoop_fl_all _ scorer _ _ (build_canonical_map_all links region)
      games [] [] (fun x hx => absurd hx (List.not_mem_nil x)) l hl

theorem C2_witness :
    containsSub (regionTag ("USA".data)) ("http://x/Game (USA).zip".data) = true :=
  (C2_region_in_url [("http://x/Game (USA).zip".data)] ("USA".data) (fun _ _ => 0) []
    ("Game".data) ("http://x/Game (USA).zip".data)
    [("http://x/Game (USA).zip".data)]).1 (by decide) (by decide)

/-- C2 counterexample: a link whose region tag occurs only in a directory
segment of the URL is retained by `build_canonical_map` even though its
filename (last path segment) does not contain the tag — refuting the claim
that only links whose filename contains `"(region)"` are retained. -/
theorem C2_counterexample :
    build_canonical_map [("http://x/(USA)/Game.zip".data)] ("USA".data)
      = [(("Game".data), [("http://x/(USA)/Game.zip".data)])]
    ∧ containsSub (regionTag ("USA".data)) (lastSegment ("http://x/(USA)/Game.zip".data))
        = false := by
  decide

/-! ## Unmatched titles (C6) -/

theorem extractOne_none (scorer : List Char → List Char → Nat) (q : List Char)
    (choices : List (List Char)) (cutoff : Nat)
    (h : ∀ c ∈ choices, scorer q c < cutoff) :
    extractOne scorer q choices cutoff = none := by
  unfold extractOne
  have hnil : (choices.map (fun c => (c, scorer q c))).filter
      (fun p => decide (cutoff ≤ p.2)) = [] := by
    rw [List.filter_eq_nil_iff]
    intro p hp
    obtain ⟨c, hc, rfl⟩ := List.mem_map.mp hp
    have := h c hc
    simp only [decide_eq_true_eq, not_le]
    exact this
  rw [hnil]
  rfl

theorem mem_setInsert_iff (s : List (List Char)) (x y : List Char) :
    x ∈ setInsert s y ↔ x ∈ s ∨ x = y := by
  unfold setInsert
  split <;> rename_i hy
  · constructor
    · exact Or.inl
    · rintro (h | rfl)
      · exact h
      · exact hy
  · simp

theorem flLoop_skip (scorer : List Char → List Char → Nat) (cm : CMap)
    (names : List (List Char)) (g : List Char) (gs fl mg : List (List Char))
    (h : extractOne scorer g names 85 = none) :
    flLoop scorer cm names (g :: gs) fl mg = flLoop scorer cm names gs fl mg := by
  simp only [flLoop, h]

theorem flLoop_middle (scorer : List Char → List Char → Nat) (cm : CMap)
    (names : List (List Char)) (g : List Char) (games₂ : List (List Char))
    (hg : extractOne scorer g names 85 = none) :
    ∀ (games₁ fl mg : List (List Char)),
      flLoop scorer cm names (games₁ ++ g :: games₂) fl mg
        = flLoop scorer cm names (games₁ ++ games₂) fl mg := by
  intro games₁
  induction games₁ with
  | nil =>
    intro fl mg
    simp only [List.nil_append]
    exact flLoop_skip scorer cm names g games₂ fl mg hg
  | cons g' rest ih =>
    intro fl mg
    simp only [List.cons_append, flLoop]
    cases hx : extractOne scorer g' names 85 with
    | none =>
      simp only [hx]
      exact ih fl mg
    | some m =>
      simp only [hx]
      cases hb : select_best_version (cmLookup cm m.1) with
      | none =>
        simp only [hb]
        exact ih fl mg
      | some bv =>
        simp only [hb]
        by_cases hbe : bv.isEmpty = true
        · simp only [if_pos hbe]
          exact ih fl mg
        · simp only [if_neg hbe]
          exact ih (fl ++ [bv]) (setInsert mg g')

theorem flLoop_mg_not_mem (scorer : List Char → List Char → Nat) (cm : CMap)
    (names : List (List Char)) (g : List Char)
    (hg : extractOne scorer g names 85 = none) :
    ∀ (gs fl mg : List (List Char)), g ∉ mg →
      g ∉ (flLoop scorer cm names gs fl mg).2 := by
  intro gs
  induction gs with
  | nil => intro fl mg h; exact h
  | cons g' gs ih =>
    intro fl mg h
    simp only [flLoop]
    cases hx : extractOne scorer g' names 85 with
    | none =>
      simp only [hx]
      exact ih fl mg h
    | some m =>
      simp only [hx]
      cases hb : select_best_version (cmLookup cm m.1) with
      | none =>
        simp only [hb]
        exact ih fl mg h
      | some bv =>
        simp only [hb]
        by_cases hbe : bv.isEmpty = true
        · simp only [if_pos hbe]
          exact ih fl mg h
        · simp only [if_neg hbe]
          apply ih
          intro hmem
          rcases (mem_setInsert_iff mg g g').mp hmem with h' | h'
          · exact h h'
          · subst h'
            rw [hg] at hx
            exact Option.noConfusion hx

theorem lexLe_total (a b : List Char) : lexLe a b = true ∨ lexLe b a = true := by
  induction a generalizing b with
  | nil => left; rfl
  | cons x xs ih =>
    cases b with
    | nil => right; rfl
    | cons y ys =>
      simp only [lexLe]
      by_cases hxy : x = y
      · subst hxy
        simp only [if_pos rfl]
        exact ih ys
      · rcases lt_trichotomy x y with h | h | h
        · left
          rw [if_neg hxy]
          exact decide_eq_true h
        · exact absurd h hxy
        · right
          rw [if_neg (fun he => hxy he.symm)]
          exact decide_eq_true h

theorem lexLe_trans (a : List Char) :
    ∀ (b c : List Char), lexLe a b = true → lexLe b c = true → lexLe a c = true := by
  induction a with
  | nil => intro b c _ _; rfl
  | cons x xs ih =>
    intro b c hab hbc
    cases b with
    | nil => simp [lexLe] at hab
    | cons y ys =>
      cases c with
      | nil => simp [lexLe] at hbc
      | cons z zs =>
        simp only [lexLe] at hab hbc ⊢
        by_cases hxy : x = y
        · subst hxy
          rw [if_pos rfl] at hab
          by_cases hyz : x = z
          · subst hyz
            rw [if_pos rfl] at hbc
            rw [if_pos rfl]
            exact ih ys zs hab hbc
          · rw [if_neg hyz] at hbc
            rw [if_neg hyz]
            exact hbc
        · rw [if_neg hxy] at hab
          have hx : x < y := of_decide_eq_true hab
          by_cases hyz : y = z
          · subst hyz
            rw [if_neg hxy]
            exact decide_eq_true hx
          · rw [if_neg hyz] at hbc
            have hy : y < z := of_decide_eq_true hbc
            have hxz : x < z := lt_trans hx hy
            rw [if_neg (ne_of_lt hxz)]
            exact decide_eq_true hxz

theorem mem_insOne (x y : List Char) :
    ∀ (l : List (List Char)), y ∈ insOne x l ↔ y = x ∨ y ∈ l := by
  intro l
  induction l with
  | nil => simp [insOne]
  | cons z zs ih =>
    simp only [insOne]
    split
    · simp
    · simp only [List.mem_cons, ih]
      tauto

theorem mem_sortLex (y : List Char) :
    ∀ (l : List (List Char)), y ∈ sortLex l ↔ y ∈ l := by
  intro l
  induction l with
  | nil => simp [sortLex]
  | cons x xs ih =>
    simp only [sortLex, mem_insOne, ih, List.mem_cons]

theorem pairwise_insOne (x : List Char) :
    ∀ (l : List (List Char)), l.Pairwise (fun a b => lexLe a b = true) →
      (insOne x l).Pairwise (fun a b => lexLe a b = true) := by
  intro l
  induction l with
  | nil => intro _; exact List.pairwise_singleton _ x
  | cons y ys ih =>
    intro h
    rcases List.pairwise_cons.mp h with ⟨hy, hys⟩
    simp only [insOne]
    split <;> rename_i hxy
    · refine List.pairwise_cons.mpr ⟨?_, h⟩
      intro z hz
      rcases List.mem_cons.mp hz with h' | h'
      · subst h'; exact hxy
      · exact lexLe_trans x y z hxy (hy z h')
    · refine List.pairwise_cons.mpr ⟨?_, ih hys⟩
      intro z hz
      rcases (mem_insOne x z ys).mp hz with h' | h'
      · rw [h']
        rcases lexLe_total x y with h'' | h''
        · exact absurd h'' hxy
        · exact h''
      · exact hy z h'

theorem pairwise_sortLex :
    ∀ (l : List (List Char)), (sortLex l).Pairwise (fun a b => lexLe a b = true) := by
  intro l
  induction l with
  | nil => exact List.Pairwise.nil
  | cons x xs ih => exact pairwise_insOne x (sortLex xs) ih

theorem mem_missing_games_report (games matched : List (List Char)) (x : List Char) :
    x ∈ missing_games_report games matched ↔ x ∈ games ∧ x ∉ matched := by
  unfold missing_games_report
  rw [mem_sortLex, List.mem_dedup, List.mem_filter]
  simp [List.elem_iff]

/-- C6: a requested title whose similarity score is below 85 against every
canonical title contributes no selected link (dropping it from the games list
leaves the result of `filter_links` unchanged), is excluded from
`matched_games`, and appears in the reported unmatched list, which is exactly
the sorted complement of `matched_games` in `games`. -/
theorem C6_below_cutoff_unmatched (scorer : List Char → List Char → Nat)
    (links : List (List Char)) (region : List Char) (g x : List Char)
    (games₁ games₂ : List (List Char))
    (h : ∀ c ∈ cmKeys (build_canonical_map links region), scorer g c < 85) :
    filter_links scorer links (games₁ ++ g :: games₂) region
      = filter_links scorer links (games₁ ++ games₂) region
    ∧ g ∉ (filter_links scorer links (games₁ ++ g :: games₂) region).2
    ∧ g ∈ missing_games_report (games₁ ++ g :: games₂)
        (filter_links scorer links (games₁ ++ g :: games₂) region).2
    ∧ (x ∈ missing_games_report (games₁ ++ g :: games₂)
          (filter_links scorer links (games₁ ++ g :: games₂) region).2
        ↔ x ∈ games₁ ++ g :: games₂
          ∧ x ∉ (filter_links scorer links (games₁ ++ g :: games₂) region).2)
    ∧ (missing_games_report (games₁ ++ g :: games₂)
        (filter_links scorer links (games₁ ++ g :: games₂) region).2).Pairwise
        (fun a b => lexLe a b = true) := by
  have hnone : extractOne scorer g (cmKeys (build_canonical_map links region)) 85 = none :=
    extractOne_none scorer g _ 85 h
  have hmg : g ∉ (filter_links scorer links (games₁ ++ g :: games₂) region).2 := by
    simp only [filter_links]
    exact flLoop_mg_not_mem scorer _ _ g hnone (games₁ ++ g :: games₂) [] []
      (List.not_mem_nil g)
  refine ⟨?_, hmg, ?_, ?_, ?_⟩
  · simp only [filter_links]
    rw [flLoop_middle scorer _ _ g games₂ hnone games₁ [] []]
  · rw [mem_missing_games_report]
    exact ⟨List.mem_append_right _ (List.mem_cons_self g games₂), hmg⟩
  · exact mem_missing_games_report _ _ x
  · exact pairwise_sortLex _

theorem C6_witness :
    filter_links (fun _ _ => 0) [("http://x/A (USA).zip".data)] [("B".data)] ("USA".data)
      = filter_links (fun _ _ => 0) [("http://x/A (USA).zip".data)] [] ("USA".data)
    ∧ ("B".data) ∉ (filter_links (fun _ _ => 0) [("http://x/A (USA).zip".data)]
        [("B".data)] ("USA".data)).2
    ∧ ("B".data) ∈ missing_games_report [("B".data)]
        (filter_links (fun _ _ => 0) [("http://x/A (USA).zip".data)]
          [("B".data)] ("USA".data)).2
    ∧ (("B".data) ∈ missing_games_report [("B".data)]
          (filter_links (fun _ _ => 0) [("http://x/A (USA).zip".data)]
            [("B".data)] ("USA".data)).2
        ↔ ("B".data) ∈ [("B".data)]
          ∧ ("B".data) ∉ (filter_links (fun _ _ => 0) [("http://x/A (USA).zip".data)]
              [("B".data)] ("USA".data)).2)
    ∧ (missing_games_report [("B".data)]
        (filter_links (fun _ _ => 0) [("http://x/A (USA).zip".data)]
          [("B".data)] ("USA".data)).2).Pairwise (fun a b => lexLe a b = true) := by
  have h := C6_below_cutoff_unmatched (fun _ _ => 0) [("http://x/A (USA).zip".data)]
    ("USA".data) ("B".data) ("B".data) [] [] (by decide)
  simpa using h

/-! ## The ".zip" removal (C4, C3) -/

/-- Python `str.split(".zip")`: the segments between the non-overlapping
left-to-right occurrences of `".zip"`.  `"".join(s.split(".zip"))` is an
equivalent description of `s.replace(".zip", "")`. -/
def splitZip : List Char → List (List Char)
  | [] => [[]]
  | '.' :: 'z' :: 'i' :: 'p' :: cs => [] :: splitZip cs
  | c :: cs => (splitZip cs).modifyHead (c :: ·)

theorem removeZip_cons_eq (c : Char) (cs : List Char)
    (h : ∀ cs', c = '.' → cs = 'z' :: 'i' :: 'p' :: cs' → False) :
    removeZip (c :: cs) = c :: removeZip cs := by
  rw [removeZip.eq_def]
  split
  · rename_i heq
    exact absurd heq (by simp)
  · rename_i cs' heq
    injection heq with h1 h2
    exact (h cs' h1 h2).elim
  · rename_i c2 cs2 hne heq
    injection heq with h1 h2
    subst h1
    subst h2
    rfl

theorem splitZip_cons_eq (c : Char) (cs : List Char)
    (h : ∀ cs', c = '.' → cs = 'z' :: 'i' :: 'p' :: cs' → False) :
    splitZip (c :: cs) = (splitZip cs).modifyHead (c :: ·) := by
  rw [splitZip.eq_def]
  split
  · rename_i heq
    exact absurd heq (by simp)
  · rename_i cs' heq
    injection heq with h1 h2
    exact (h cs' h1 h2).elim
  · rename_i c2 cs2 hne heq
    injection heq with h1 h2
    subst h1
    subst h2
    rfl

theorem splitZip_ne_nil : ∀ (l : List Char), splitZip l ≠ [] := by
  intro l
  induction l using splitZip.induct with
  | case1 => simp [splitZip]
  | case2 cs ih => simp [splitZip]
  | case3 c cs h ih =>
    rw [splitZip_cons_eq c cs h]
    rcases hn : splitZip cs with _ | ⟨s, ss⟩
    · exact absurd hn ih
    · simp

theorem removeZip_eq_flatten : ∀ (l : List Char), removeZip l = (splitZip l).flatten := by
  intro l
  induction l using removeZip.induct with
  | case1 => rfl
  | case2 cs ih => simp [removeZip, splitZip, ih]
  | case3 c cs h ih =>
    rw [removeZip_cons_eq c cs h, splitZip_cons_eq c cs h, ih]
    rcases hn : splitZip cs with _ | ⟨s, ss⟩
    · exact absurd hn (splitZip_ne_nil cs)
    · simp

/-- The normalizer the claim describes: parenthetical groups removed, only a
TRAILING `".zip"` extension removed, whitespace trimmed. -/
def get_canonical_name_claimed (filename : List Char) : List Char :=
  let name := reSubTags filename
  let name :=
    if (".zip".data).isSuffixOf name then name.take (name.length - 4) else name
  pyStrip name

/-- C4 counterexample: on `"A.zipB.zip"` the code removes the interior
`".zip"` as well (giving `"AB"`), while the claim's trailing-extension-only
description gives `"A.zipB"`. -/
theorem C4_counterexample :
    get_canonical_name ("A.zipB.zip".data) = ("AB".data)
    ∧ get_canonical_name_claimed ("A.zipB.zip".data) = ("A.zipB".data)
    ∧ get_canonical_name ("A.zipB.zip".data)
        ≠ get_canonical_name_claimed ("A.zipB.zip".data) := by
  decide

/-- C4 (amended): `get_canonical_name` removes every non-nested parenthetical
group with the whitespace run preceding it, removes EVERY occurrence of
`".zip"` (left-to-right, non-overlapping: equivalently, split on `".zip"` and
join the pieces), and trims surrounding whitespace; in particular
`"Game (USA) (Rev 2).zip"` normalises to `"Game"`. -/
theorem C4_canonical_name (f : List Char) :
    get_canonical_name f = pyStrip ((splitZip (reSubTags f)).flatten)
    ∧ get_canonical_name ("Game (USA) (Rev 2).zip".data) = ("Game".data) := by
  refine ⟨?_, by decide⟩
  unfold get_canonical_name
  rw [removeZip_eq_flatten]

/-! ## Idempotence analysis of the tag remover (C3) -/

/-- No `'('` is followed, later in the list, by a `')'` — equivalently,
`['(', ')']` is not a sublist.  Such strings are fixed points of the
tag-removing `re.sub`. -/
def ParenClean (l : List Char) : Prop := ¬ (['(', ')'].Sublist l)

theorem parenClean_of_sublist (l l' : List Char) (hs : l.Sublist l') (h : ParenClean l') :
    ParenClean l :=
  fun hp => h (hp.trans hs)

theorem parenClean_of_split (a b : List Char) (ha : '(' ∉ a) (hb : ')' ∉ b) :
    ParenClean (a ++ b) := by
  intro hp
  rcases List.sublist_append_iff.mp hp with ⟨l₁, l₂, heq, h₁, h₂⟩
  cases l₁ with
  | nil =>
    have hl₂ : ['(', ')'] = l₂ := by simpa using heq
    exact hb (h₂.subset (hl₂ ▸ (by simp : ')' ∈ (['(', ')'] : List Char))))
  | cons x xs =>
    simp only [List.cons_append] at heq
    injection heq with h1 h2
    subst h1
    exact ha (h₁.subset (by simp))

theorem splitClose_ne_nil : ∀ (l : List Char), splitClose l ≠ [] := by
  intro l
  induction l with
  | nil => simp [splitClose]
  | cons c cs ih =>
    simp only [splitClose]
    split
    · simp
    · rcases hn : splitClose cs with _ | ⟨s, ss⟩
      · exact absurd hn ih
      · simp [hn]

theorem splitClose_no_close :
    ∀ (l : List Char) (s : List Char), s ∈ splitClose l → ')' ∉ s := by
  intro l
  induction l with
  | nil =>
    intro s hs
    simp only [splitClose, List.mem_singleton] at hs
    subst hs
    simp
  | cons c cs ih =>
    intro s hs
    simp only [splitClose] at hs
    split at hs <;> rename_i hc
    · rcases List.mem_cons.mp hs with h | h
      · subst h; simp
      · exact ih s h
    · rcases hn : splitClose cs with _ | ⟨s0, ss⟩
      · exact absurd hn (splitClose_ne_nil cs)
      · rw [hn, List.modifyHead_cons] at hs
        have hs0 : s0 ∈ splitClose cs := by rw [hn]; simp
        rcases List.mem_cons.mp hs with h | h
        · subst h
          intro hmem
          rcases List.mem_cons.mp hmem with h' | h'
          · exact hc h'.symm
          · exact ih s0 hs0 h'
        · have : s ∈ splitClose cs := by rw [hn]; exact List.mem_cons_of_mem s0 h
          exact ih s this

theorem takeWhile_no_open (t : List Char) :
    '(' ∉ t.takeWhile (fun c => c ≠ '(') := by
  intro hmem
  have := List.mem_takeWhile_imp hmem
  simp at this

theorem dropTrailSpaces_sublist (l : List Char) : (dropTrailSpaces l).Sublist l := by
  unfold dropTrailSpaces
  have h1 : (l.reverse.dropWhile pySpace).Sublist l.reverse := List.dropWhile_sublist pySpace
  have h2 := h1.reverse
  rwa [List.reverse_reverse] at h2

theorem cleanSeg_no_open (t : List Char) : '(' ∉ cleanSeg t := by
  unfold cleanSeg
  split <;> rename_i hc
  · intro hmem
    exact takeWhile_no_open t ((dropTrailSpaces_sublist _).subset hmem)
  · intro hmem
    rcases List.mem_append.mp hmem with h | h
    · rw [List.contains_eq_any_beq] at hc
      simp only [List.any_eq_true, beq_iff_eq] at hc
      exact hc ⟨'(', h, rfl⟩
    · simp at h

theorem contains_eq_false (l : List Char) (c : Char) (h : c ∉ l) :
    l.contains c = false := by
  by_contra hcon
  rw [Bool.not_eq_false, List.contains_eq_any_beq, List.any_eq_true] at hcon
  obtain ⟨x, hx, hbeq⟩ := hcon
  rw [beq_iff_eq] at hbeq
  exact h (by rw [hbeq]; exact hx)

theorem assembleSegs_split :
    ∀ (segs : List (List Char)), (∀ s ∈ segs, ')' ∉ s) →
      ∃ a b, assembleSegs segs = a ++ b ∧ '(' ∉ a ∧ ')' ∉ b := by
  intro segs
  induction segs using assembleSegs.induct with
  | case1 =>
    intro _
    exact ⟨[], [], rfl, by simp, by simp⟩
  | case2 t =>
    intro h
    exact ⟨[], t, rfl, by simp, h t (by simp)⟩
  | case3 t t' ts ih =>
    intro h
    obtain ⟨a, b, heq, ha, hb⟩ := ih (fun s hs => h s (List.mem_cons_of_mem t hs))
    refine ⟨cleanSeg t ++ a, b, ?_, ?_, hb⟩
    · show cleanSeg t ++ assembleSegs (t' :: ts) = cleanSeg t ++ a ++ b
      rw [heq, List.append_assoc]
    · intro hmem
      rcases List.mem_append.mp hmem with h' | h'
      · exact cleanSeg_no_open t h'
      · exact ha h'

theorem reSubTags_parenClean (l : List Char) : ParenClean (reSubTags l) := by
  obtain ⟨a, b, heq, ha, hb⟩ :=
    assembleSegs_split (splitClose l) (splitClose_no_close l)
  unfold reSubTags
  rw [heq]
  exact parenClean_of_split a b ha hb

theorem splitClose_eq_single :
    ∀ (l : List Char), ')' ∉ l → splitClose l = [l] := by
  intro l
  induction l with
  | nil => intro _; rfl
  | cons c cs ih =>
    intro h
    have hc : ¬(c = ')') := fun he => h (he ▸ List.mem_cons_self c cs)
    have hcs : ')' ∉ cs := fun hm => h (List.mem_cons_of_mem c hm)
    simp only [splitClose, if_neg hc, ih hcs, List.modifyHead_cons]

theorem splitClose_head (l : List Char) :
    ∃ ss, splitClose l = (l.takeWhile (fun c => c ≠ ')')) :: ss := by
  induction l with
  | nil => exact ⟨[], rfl⟩
  | cons c cs ih =>
    obtain ⟨ss, hss⟩ := ih
    by_cases hc : c = ')'
    · subst hc
      refine ⟨splitClose cs, ?_⟩
      simp [splitClose, List.takeWhile_cons]
    · refine ⟨ss, ?_⟩
      simp [splitClose, List.takeWhile_cons, hc, hss]

theorem takeWhile_append_of_mem :
    ∀ (a b : List Char), ')' ∈ a →
      (a ++ b).takeWhile (fun c => c ≠ ')') = a.takeWhile (fun c => c ≠ ')') := by
  intro a
  induction a with
  | nil => intro b h; exact absurd h (List.not_mem_nil _)
  | cons c a ih =>
    intro b h
    by_cases hc : c = ')'
    · subst hc
      simp [List.cons_append, List.takeWhile_cons]
    · have hmem : ')' ∈ a := by
        rcases List.mem_cons.mp h with h' | h'
        · exact absurd h'.symm hc
        · exact h'
      have hd : decide (c ≠ ')') = true := by simp [hc]
      rw [List.cons_append, List.takeWhile_cons, List.takeWhile_cons, hd]
      simpa using ih b hmem

theorem reSubTags_no_close (b : List Char) (h : ')' ∉ b) : reSubTags b = b := by
  unfold reSubTags
  rw [splitClose_eq_single b h]
  rfl

theorem reSubTags_append_id :
    ∀ (a b : List Char), '(' ∉ a → ')' ∉ b → reSubTags (a ++ b) = a ++ b := by
  intro a
  induction a with
  | nil =>
    intro b _ hb
    simpa using reSubTags_no_close b hb
  | cons c a ih =>
    intro b hca hb
    have hc : c ≠ '(' := fun h => hca (h ▸ List.mem_cons_self c a)
    have ha : '(' ∉ a := fun h => hca (List.mem_cons_of_mem c h)
    rcases hsc : splitClose (a ++ b) with _ | ⟨s, ss⟩
    · exact absurd hsc (splitClose_ne_nil _)
    · by_cases hcr : c = ')'
      · have e1 : reSubTags (c :: (a ++ b)) = ')' :: reSubTags (a ++ b) := by
          unfold reSubTags
          simp only [splitClose, if_pos hcr, hsc]
          rfl
        rw [List.cons_append, e1, ih b ha hb, hcr]
      · cases ss with
        | nil =>
          have hs : s = a ++ b := by
            have hih := ih b ha hb
            unfold reSubTags at hih
            rw [hsc] at hih
            exact hih
          have e1 : reSubTags (c :: (a ++ b)) = c :: s := by
            unfold reSubTags
            simp only [splitClose, if_neg hcr, hsc, List.modifyHead_cons]
            rfl
          rw [List.cons_append, e1, hs]
        | cons r ss' =>
          have hmem : ')' ∈ a ++ b := by
            by_contra hno
            rw [splitClose_eq_single _ hno] at hsc
            simp at hsc
          have hmema : ')' ∈ a := by
            rcases List.mem_append.mp hmem with h' | h'
            · exact h'
            · exact absurd h' hb
          have hshead : s = (a ++ b).takeWhile (fun x => x ≠ ')') := by
            obtain ⟨ss2, h2⟩ := splitClose_head (a ++ b)
            rw [hsc] at h2
            have h3 := congrArg (fun l => l.headD ([] : List Char)) h2
            simpa using h3
          have hsa : '(' ∉ s := by
            rw [hshead, takeWhile_append_of_mem a b hmema]
            intro hmem2
            exact ha ((List.takeWhile_sublist _).subset hmem2)
          have hcs : (c :: s).contains '(' = false := by
            apply contains_eq_false
            intro hmem2
            rcases List.mem_cons.mp hmem2 with h' | h'
            · exact hc h'.symm
            · exact hsa h'
          have hss : s.contains '(' = false := contains_eq_false s '(' hsa
          have e1 : reSubTags (c :: (a ++ b)) = c :: reSubTags (a ++ b) := by
            unfold reSubTags
            simp only [splitClose, if_neg hcr, hsc, List.modifyHead_cons]
            show cleanSeg (c :: s) ++ assembleSegs (r :: ss')
              = c :: (cleanSeg s ++ assembleSegs (r :: ss'))
            unfold cleanSeg
            rw [if_neg (by rw [hcs]; exact Bool.false_ne_true),
              if_neg (by rw [hss]; exact Bool.false_ne_true)]
            simp
          rw [List.cons_append, e1, ih b ha hb]

theorem dropWhile_head_not (p : Char → Bool) :
    ∀ (l : List Char) (c : Char) (cs : List Char),
      l.dropWhile p = c :: cs → p c = false := by
  intro l
  induction l with
  | nil => intro c cs h; exact List.noConfusion h
  | cons x xs ih =>
    intro c cs h
    by_cases hp : p x = true
    · rw [List.dropWhile_cons_of_pos hp] at h
      exact ih c cs h
    · rw [List.dropWhile_cons_of_neg hp] at h
      injection h with h1 _
      rw [← h1]
      exact Bool.eq_false_iff.mpr hp

theorem parenClean_reSubTags_id (l : List Char) (h : ParenClean l) :
    reSubTags l = l := by
  have ha : '(' ∉ l.takeWhile (fun c => c ≠ '(') := takeWhile_no_open l
  have hb : ')' ∉ l.dropWhile (fun c => c ≠ '(') := by
    rcases hd : l.dropWhile (fun c => c ≠ '(') with _ | ⟨x, rest⟩
    · simp
    · have hx : x = '(' := by
        have := dropWhile_head_not (fun c => c ≠ '(') l x rest hd
        simpa using this
      subst hx
      intro hmem
      rcases List.mem_cons.mp hmem with h' | h'
      · exact absurd h'.symm (by simp)
      · apply h
        have h1 : (['(', ')'] : List Char).Sublist ('(' :: rest) :=
          List.cons_sublist_cons.mpr (List.singleton_sublist.mpr h')
        have h2 : ('(' :: rest).Sublist l := by
          rw [← hd]
          exact List.dropWhile_sublist _
        exact h1.trans h2
  have hmain := reSubTags_append_id _ _ ha hb
  rwa [List.takeWhile_append_dropWhile] at hmain

theorem dropWhile_idem (p : Char → Bool) (l : List Char) :
    (l.dropWhile p).dropWhile p = l.dropWhile p := by
  rcases h : l.dropWhile p with _ | ⟨c, cs⟩
  · rfl
  · rw [List.dropWhile_cons_of_neg]
    rw [dropWhile_head_not p l c cs h]
    exact Bool.false_ne_true

theorem dropWhile_prefix_id (p : Char → Bool) :
    ∀ (t l : List Char), t.IsPrefix l → l.dropWhile p = l → t.dropWhile p = t := by
  intro t l ht hl
  cases t with
  | nil => rfl
  | cons c t' =>
    obtain ⟨u, hu⟩ := ht
    by_cases hp : p c = true
    · exfalso
      rw [← hu, List.cons_append, List.dropWhile_cons_of_pos hp] at hl
      have hlen := congrArg List.length hl
      have hle : ((t' ++ u).dropWhile p).length ≤ (t' ++ u).length :=
        (List.dropWhile_sublist p).length_le
      simp only [List.length_cons] at hlen
      omega
    · rw [List.dropWhile_cons_of_neg hp]

theorem dropTrailSpaces_front (l : List Char) : (dropTrailSpaces l).IsPrefix l := by
  unfold dropTrailSpaces
  have h1 : ((l.reverse.dropWhile pySpace).reverse).IsPrefix l.reverse.reverse :=
    List.reverse_prefix.mpr (List.dropWhile_suffix pySpace)
  rwa [List.reverse_reverse] at h1

theorem pyStrip_idem (l : List Char) : pyStrip (pyStrip l) = pyStrip l := by
  unfold pyStrip
  have h1 : (dropTrailSpaces (l.dropWhile pySpace)).dropWhile pySpace
      = dropTrailSpaces (l.dropWhile pySpace) :=
    dropWhile_prefix_id pySpace _ _ (dropTrailSpaces_front _) (dropWhile_idem pySpace l)
  rw [h1]
  unfold dropTrailSpaces
  rw [List.reverse_reverse, dropWhile_idem]

theorem pyStrip_sublist (l : List Char) : (pyStrip l).Sublist l := by
  unfold pyStrip
  exact ((dropTrailSpaces_front _).sublist).trans (List.dropWhile_sublist _)

theorem removeZip_sublist : ∀ (l : List Char), (removeZip l).Sublist l := by
  intro l
  induction l using removeZip.induct with
  | case1 => exact List.Sublist.refl []
  | case2 cs ih =>
    show (removeZip cs).Sublist ('.' :: 'z' :: 'i' :: 'p' :: cs)
    exact (((ih.trans (List.sublist_cons_self 'p' cs)).trans
      (List.sublist_cons_self 'i' _)).trans
      (List.sublist_cons_self 'z' _)).trans
      (List.sublist_cons_self '.' _)
  | case3 c cs h ih =>
    rw [removeZip_cons_eq c cs h]
    exact List.cons_sublist_cons.mpr ih

theorem removeZip_id :
    ∀ (l : List Char), containsSub (".zip".data) l = false → removeZip l = l := by
  intro l
  induction l using removeZip.induct with
  | case1 => intro _; rfl
  | case2 cs ih =>
    intro h
    exfalso
    have hpre : (".zip".data).isPrefixOf ('.' :: 'z' :: 'i' :: 'p' :: cs) = true := by
      have hd : (".zip".data) = ['.', 'z', 'i', 'p'] := by decide
      rw [hd]
      simp [List.isPrefixOf]
    simp only [containsSub] at h
    rw [hpre] at h
    simp at h
  | case3 c cs h ih =>
    intro hc
    rw [removeZip_cons_eq c cs h]
    simp only [containsSub, Bool.or_eq_false_iff] at hc
    rw [ih hc.2]

/-- C3 counterexample: the normalizer is not idempotent: on `".z.zipip"` the
first application yields `".zip"` (the replace re-creates a `".zip"` by
splicing), and a second application yields `""`. -/
theorem C3_counterexample :
    get_canonical_name (get_canonical_name (".z.zipip".data))
      ≠ get_canonical_name (".z.zipip".data) := by
  decide

/-- C3 (amended): `get_canonical_name` is idempotent on every filename whose
canonical name contains no `".zip"` occurrence (in general a second
application can remove further `".zip"` substrings that the non-recursive
replace spliced together, as the counterexample shows). -/
theorem C3_idempotent_no_zip (f : List Char)
    (h : containsSub (".zip".data) (get_canonical_name f) = false) :
    get_canonical_name (get_canonical_name f) = get_canonical_name f := by
  have hpc : ParenClean (get_canonical_name f) := by
    apply parenClean_of_sublist _ _ ?_ (reSubTags_parenClean f)
    exact (pyStrip_sublist _).trans (removeZip_sublist _)
  show pyStrip (removeZip (reSubTags (get_canonical_name f))) = get_canonical_name f
  rw [parenClean_reSubTags_id _ hpc, removeZip_id _ h]
  show pyStrip (pyStrip (removeZip (reSubTags f))) = _
  exact pyStrip_idem _

theorem C3_witness :
    get_canonical_name (get_canonical_name ("Game (USA).zip".data))
      = get_canonical_name ("Game (USA).zip".data) :=
  C3_idempotent_no_zip ("Game (USA).zip".data) (by decide)
